import Mathlib

/-!
Verification of the training-os repository's reconciliation/aggregation core
against its natural-language specification.

The frontend source (src/frontend/app.js, src/frontend/analysis.js) is embedded
shallowly:

* JS `Date` values that the code always normalizes to local midnight are
  modelled as an integer count of civil days since 1970-01-01 (a Thursday).
  Calendar conversions follow the standard civil-calendar algorithms
  (`daysFromCivil` / `civilFromDays`), which agree with JS `Date` local-date
  arithmetic at midnight; daylight-saving shifts are not modelled.
* JS numbers are modelled as rationals (the code only performs +, *, /,
  Math.round and comparisons on values far below 2^53, where double
  arithmetic used by the aggregation code coincides with exact arithmetic for
  the integral/decimal inputs stored in sessions).
* Absent fields (null/undefined) are modelled with `Option`; the JS
  truthiness-based fallback `a || b` on numbers is `jsNumOr`/`jsOrZero`
  (`0`, `null` and `undefined` are all falsy).
-/

namespace TrainingOS

/-- JS `x || d` for a possibly-absent number `x`: `null`/`undefined` and `0`
are falsy, any other number is returned unchanged. -/
def jsNumOr (x : Option ℚ) (d : ℚ) : ℚ :=
  match x with
  | none => d
  | some v => if v = 0 then d else v

/-- JS `v || 0` for a present number `v` (identity on rationals, kept for
faithfulness to the source's truthiness guard). -/
def jsOrZero (v : ℚ) : ℚ :=
  if v = 0 then 0 else v

/-- JS `Math.round`: half-up rounding, `Math.round x = ⌊x + 1/2⌋`
(also for negative inputs: `Math.round (-2.5) = -2`). -/
def jsRound (q : ℚ) : ℤ :=
  ⌊q + 1/2⌋

/-- JS `Math.round (q * 10) / 10`: round to one decimal place. -/
def roundTenth (q : ℚ) : ℚ :=
  (jsRound (q * 10) : ℚ) / 10

/-! ## Civil-calendar arithmetic

The embedding of the JS `Date` operations used by `getStartOfIsoWeek`,
`getIsoWeekYear` and `getIsoWeek`.  A date is an integer day count `z`
(1970-01-01 = 0). -/

/-- Day count (since 1970-01-01) of the civil date `(y, m, d)`;
the standard `days_from_civil` algorithm.  This is what JS
`new Date(y, m-1, d)` denotes in the day-count model. -/
def daysFromCivil (y m d : ℤ) : ℤ :=
  let y' := y - (if m ≤ 2 then 1 else 0)
  let era := y' / 400
  let yoe := y' - era * 400
  let doy := (153 * (m + (if m > 2 then -3 else 9)) + 2) / 5 + d - 1
  let doe := yoe * 365 + yoe / 4 - yoe / 100 + doy
  era * 146097 + doe - 719468

/-- Civil date `(year, month, day)` of a day count; the standard
`civil_from_days` algorithm, inverse of `daysFromCivil`. -/
def civilFromDays (z : ℤ) : ℤ × ℤ × ℤ :=
  let z' := z + 719468
  let era := z' / 146097
  let doe := z' - era * 146097
  let yoe := (doe - doe / 1460 + doe / 36524 - doe / 146096) / 365
  let y := yoe + era * 400
  let doy := doe - (365 * yoe + yoe / 4 - yoe / 100)
  let mp := (5 * doy + 2) / 153
  let d := doy - (153 * mp + 2) / 5 + 1
  let m := mp + (if mp < 10 then 3 else -9)
  (y + (if m ≤ 2 then 1 else 0), m, d)

/-- JS `date.getDay()`: 0 = Sunday … 6 = Saturday.  Day 0 (1970-01-01) was a
Thursday, hence the shift by 4. -/
def jsGetDay (z : ℤ) : ℤ :=
  (z + 4) % 7

/-- JS `date.getFullYear()` in the day-count model. -/
def jsGetFullYear (z : ℤ) : ℤ :=
  (civilFromDays z).1

/-- app.js `getStartOfIsoWeek` (analysis.js has an identical copy):
`diff = day === 0 ? -6 : 1 - day`, then `setDate(getDate() + diff)` and
`setHours(0,0,0,0)` (midnight is implicit in the day-count model). -/
def getStartOfIsoWeek (z : ℤ) : ℤ :=
  let day := jsGetDay z
  let diff := if day = 0 then -6 else 1 - day
  z + diff

/-- The date computed by `target.setDate(target.getDate() + 4 - (target.getDay() || 7))`
shared by `getIsoWeekYear` and `getIsoWeek`: the Thursday of `z`'s Monday-start
week. -/
def isoWeekThursdayTarget (z : ℤ) : ℤ :=
  z + 4 - (if jsGetDay z = 0 then 7 else jsGetDay z)

/-- app.js `getIsoWeekYear` (analysis.js has an identical copy). -/
def getIsoWeekYear (z : ℤ) : ℤ :=
  jsGetFullYear (isoWeekThursdayTarget z)

/-- app.js `getIsoWeek` (analysis.js has an identical copy).
`Math.ceil(((target - yearStart) / 86400000 + 1) / 7)` at midnight dates is
`⌈(diffDays + 1) / 7⌉ = (diffDays + 1 + 6) / 7` in floor division. -/
def getIsoWeek (z : ℤ) : ℤ :=
  let target := isoWeekThursdayTarget z
  let yearStart := daysFromCivil (jsGetFullYear target) 1 1
  (target - yearStart + 1 + 6) / 7

/-! ## Spec-side ISO-week definitions

Formalizations of the spec's words: "ISO week starts Monday, week 1 contains
the year's first Thursday".  These are written from the spec, to be compared
with the source-derived functions above. -/

/-- A day count is a Monday (1970-01-05, day 4, was a Monday). -/
def isMondaySpec (z : ℤ) : Prop :=
  z % 7 = 4

/-- A day count is a Thursday (1970-01-01, day 0, was a Thursday). -/
def isThursdaySpec (z : ℤ) : Prop :=
  z % 7 = 0

/-- The Monday that starts the (Monday-based) week of `z`: the unique Monday
at most 6 days before `z`. -/
def mondayOfWeekSpec (z : ℤ) : ℤ :=
  z - (z + 3) % 7

/-- The Thursday of the (Monday-based) week of `z`. -/
def thursdayOfWeekSpec (z : ℤ) : ℤ :=
  mondayOfWeekSpec z + 3

/-- The first Thursday of calendar year `y`: the smallest Thursday on or after
January 1 of `y`. -/
def firstThursdayOfYear (y : ℤ) : ℤ :=
  daysFromCivil y 1 1 + (-(daysFromCivil y 1 1)) % 7

/-- Spec-side ISO week number: the index of `z`'s Monday-start week counted
from week 1, the week containing the first Thursday of the ISO week-year. -/
def isoWeekNumberSpec (z : ℤ) : ℤ :=
  1 + (mondayOfWeekSpec z - mondayOfWeekSpec (firstThursdayOfYear (getIsoWeekYear z))) / 7

/-! Basic bridging lemmas between the JS code's day arithmetic and the
spec-side week structure. -/

theorem isoWeekThursdayTarget_eq_thursdayOfWeekSpec (z : ℤ) :
    isoWeekThursdayTarget z = thursdayOfWeekSpec z := by
  unfold isoWeekThursdayTarget thursdayOfWeekSpec mondayOfWeekSpec jsGetDay
  split <;> omega

theorem getStartOfIsoWeek_eq_mondayOfWeekSpec (z : ℤ) :
    getStartOfIsoWeek z = mondayOfWeekSpec z := by
  unfold getStartOfIsoWeek mondayOfWeekSpec jsGetDay
  dsimp only
  split <;> omega

theorem thursdayOfWeekSpec_isThursday (z : ℤ) :
    isThursdaySpec (thursdayOfWeekSpec z) := by
  unfold isThursdaySpec thursdayOfWeekSpec mondayOfWeekSpec
  omega

theorem firstThursdayOfYear_isThursday (y : ℤ) :
    isThursdaySpec (firstThursdayOfYear y) := by
  unfold isThursdaySpec firstThursdayOfYear
  omega

theorem firstThursdayOfYear_mem (y : ℤ) :
    daysFromCivil y 1 1 ≤ firstThursdayOfYear y ∧
      firstThursdayOfYear y ≤ daysFromCivil y 1 1 + 6 := by
  unfold firstThursdayOfYear
  omega

theorem firstThursdayOfYear_least (y t : ℤ) (ht : isThursdaySpec t)
    (hge : daysFromCivil y 1 1 ≤ t) : firstThursdayOfYear y ≤ t := by
  unfold firstThursdayOfYear
  unfold isThursdaySpec at ht
  omega

/-- Key refinement lemma for the week-number computation: the code's
`getIsoWeek` agrees with the spec-side ISO week number everywhere. -/
theorem getIsoWeek_eq_isoWeekNumberSpec (z : ℤ) :
    getIsoWeek z = isoWeekNumberSpec z := by
  unfold getIsoWeek isoWeekNumberSpec getIsoWeekYear
  dsimp only
  rw [isoWeekThursdayTarget_eq_thursdayOfWeekSpec]
  set Y := jsGetFullYear (thursdayOfWeekSpec z) with hY
  unfold firstThursdayOfYear mondayOfWeekSpec thursdayOfWeekSpec mondayOfWeekSpec
  generalize daysFromCivil Y 1 1 = ys
  omega

/-- December days of year `y` sit a fixed distance before January 1 of
year `y + 1` (day `d` of December is `32 - d` days before it). -/
theorem daysFromCivil_late_december (y d : ℤ) :
    daysFromCivil y 12 d = daysFromCivil (y + 1) 1 1 + (d - 32) := by
  unfold daysFromCivil
  dsimp only
  norm_num
  omega

/-- Round-trip of the year component for the first three days of January:
`getFullYear` recovers `y` from the day count of January 1–3 of year `y`. -/
theorem jsGetFullYear_jan1_add (y j : ℤ) (h0 : 0 ≤ j) (h2 : j ≤ 2) :
    jsGetFullYear (daysFromCivil y 1 1 + j) = y := by
  set e := (y - 1) / 400 with he
  set u := y - 1 - e * 400 with hu
  have hu0 : 0 ≤ u := by omega
  have hu399 : u ≤ 399 := by omega
  set doe := u * 365 + u / 4 - u / 100 + 306 + j with hdoe
  obtain ⟨z, hzdef⟩ : ∃ z, z = daysFromCivil y 1 1 + j := ⟨_, rfl⟩
  rw [← hzdef]
  have hz : z + 719468 = e * 146097 + doe := by
    rw [hzdef]
    unfold daysFromCivil
    dsimp only
    norm_num
    omega
  unfold jsGetFullYear civilFromDays
  dsimp only
  rw [hz]
  have hera : (e * 146097 + doe) / 146097 = e := by omega
  rw [hera]
  have hsub : e * 146097 + doe - e * 146097 = doe := by ring
  rw [hsub]
  have hyoe : (doe - doe / 1460 + doe / 36524 - doe / 146096) / 365 = u := by omega
  rw [hyoe]
  have hdoy : doe - (365 * u + u / 4 - u / 100) = 306 + j := by omega
  rw [hdoy]
  have hmp : (5 * (306 + j) + 2) / 153 = 10 := by omega
  rw [hmp]
  norm_num
  omega

/-- C2: a session dated December 29–31 whose week's Thursday falls in the next
calendar year is attributed by `getIsoWeekYear` to that following year, and by
`getIsoWeek` to week 1 — not to a week of December's calendar year. -/
theorem late_december_iso_week_one (y d : ℤ) (h29 : 29 ≤ d) (h31 : d ≤ 31)
    (hth : daysFromCivil (y + 1) 1 1 ≤ thursdayOfWeekSpec (daysFromCivil y 12 d)) :
    getIsoWeekYear (daysFromCivil y 12 d) = y + 1 ∧
      getIsoWeek (daysFromCivil y 12 d) = 1 := by
  have hdec := daysFromCivil_late_december y d
  set z := daysFromCivil y 12 d with hz
  set jan1 := daysFromCivil (y + 1) 1 1 with hjan
  have hub : thursdayOfWeekSpec z ≤ jan1 + 2 := by
    unfold thursdayOfWeekSpec mondayOfWeekSpec
    omega
  obtain ⟨j, hj0, hj2, hjt⟩ :
      ∃ j, 0 ≤ j ∧ j ≤ 2 ∧ thursdayOfWeekSpec z = jan1 + j :=
    ⟨thursdayOfWeekSpec z - jan1, by omega, by omega, by omega⟩
  have hyear : jsGetFullYear (thursdayOfWeekSpec z) = y + 1 := by
    rw [hjt, hjan]
    exact jsGetFullYear_jan1_add (y + 1) j hj0 hj2
  refine ⟨?_, ?_⟩
  · unfold getIsoWeekYear
    rw [isoWeekThursdayTarget_eq_thursdayOfWeekSpec]
    exact hyear
  · unfold getIsoWeek
    dsimp only
    rw [isoWeekThursdayTarget_eq_thursdayOfWeekSpec, hyear, ← hjan, hjt]
    omega

/-- Witness for C2: December 29, 2025 (a Monday whose week's Thursday is
January 1, 2026) belongs to ISO week 1 of 2026. -/
theorem late_december_iso_week_one_witness :
    getIsoWeekYear (daysFromCivil 2025 12 29) = 2026 ∧
      getIsoWeek (daysFromCivil 2025 12 29) = 1 := by
  have h := late_december_iso_week_one 2025 29 (by norm_num) (by norm_num)
    (by decide)
  norm_num at h
  exact h

/-- C4: `getStartOfIsoWeek` returns the unique Monday lying zero to six days
before the given date, and `getIsoWeek` equals the spec-side ISO-8601 week
number (index of the date's Monday-start week counted from week 1, the week
containing the ISO week-year's first Thursday). -/
theorem getStartOfIsoWeek_getIsoWeek_spec (z : ℤ) :
    (isMondaySpec (getStartOfIsoWeek z) ∧
      getStartOfIsoWeek z ≤ z ∧ z ≤ getStartOfIsoWeek z + 6 ∧
      (∀ w, isMondaySpec w → w ≤ z → z ≤ w + 6 → w = getStartOfIsoWeek z)) ∧
    getIsoWeek z = isoWeekNumberSpec z := by
  have hm := getStartOfIsoWeek_eq_mondayOfWeekSpec z
  unfold mondayOfWeekSpec at hm
  refine ⟨⟨?_, ?_, ?_, ?_⟩, getIsoWeek_eq_isoWeekNumberSpec z⟩
  · unfold isMondaySpec
    omega
  · omega
  · omega
  · intro w hw hw1 hw2
    unfold isMondaySpec at hw
    omega

/-- Witness for C4: January 4, 2026 (day 20457, a Sunday) has week start
December 29, 2025 (day 20451, the unique Monday at most six days before),
and its `getIsoWeek` agrees with the spec-side ISO week number. -/
theorem getStartOfIsoWeek_getIsoWeek_spec_witness :
    (20451 : ℤ) = getStartOfIsoWeek 20457 ∧ getIsoWeek 20457 = isoWeekNumberSpec 20457 :=
  ⟨(getStartOfIsoWeek_getIsoWeek_spec 20457).1.2.2.2 20451
      (by unfold isMondaySpec; decide) (by decide) (by decide),
    (getStartOfIsoWeek_getIsoWeek_spec 20457).2⟩

/-! ## Session data model (frontend summary records)

A session as the weekly summary endpoint delivers it to the frontend.
`type` is the raw string the JS code compares against; absent JSON fields are
`none`; `start_time` is the millisecond timestamp denoted by the JS
`new Date(s.start_time).getTime()` when present and non-blank, `none` for a
`null`/`undefined`/empty value. -/

structure Session where
  date : String
  start_time : Option ℤ
  type : String
  moving_duration_minutes : Option ℚ
  elapsed_duration_minutes : Option ℚ
  duration_minutes : Option ℚ
  distance_km : Option ℚ
  elevation_gain_m : Option ℚ
  notes : Option String

/-! ## Aggregation (app.js `computeWeekStats`, analysis.js `computeMetrics`)

Each `const` of `computeWeekStats` is one definition.  `computeMetrics`
repeats the run/trail, elevation, bike and swim aggregations verbatim, so
those four are shared; its strength/total aggregations differ (they read
`duration_minutes` only) and are defined separately. -/

/-- app.js `computeWeekStats` const `runTrailKm` (verbatim also in
analysis.js `computeMetrics`). -/
def runTrailKmAgg (sessions : List Session) : ℚ :=
  (sessions.filter (fun s => ["run", "trail"].contains s.type)).foldl
    (fun sum s => sum + jsNumOr s.distance_km 0) 0

/-- app.js `computeWeekStats` const `elevationM` (verbatim also in
analysis.js `computeMetrics`). -/
def elevationAgg (sessions : List Session) : ℚ :=
  (sessions.filter (fun s => ["run", "trail", "hike"].contains s.type)).foldl
    (fun sum s => sum + jsNumOr s.elevation_gain_m 0) 0

/-- app.js `computeWeekStats` const `swimKm` (verbatim also in
analysis.js `computeMetrics`). -/
def swimKmAgg (sessions : List Session) : ℚ :=
  (sessions.filter (fun s => s.type == "swim")).foldl
    (fun sum s => sum + jsNumOr s.distance_km 0) 0

/-- app.js `computeWeekStats` const `bikeKm` (verbatim also in
analysis.js `computeMetrics`). -/
def bikeKmAgg (sessions : List Session) : ℚ :=
  (sessions.filter (fun s => s.type == "bike")).foldl
    (fun sum s => sum + jsNumOr s.distance_km 0) 0

/-- app.js `computeWeekStats` const `strengthMinutes`:
`moving_duration_minutes || duration_minutes || 0`. -/
def strengthMinutesAgg (sessions : List Session) : ℚ :=
  (sessions.filter (fun s => s.type == "strength")).foldl
    (fun sum s => sum + jsNumOr s.moving_duration_minutes (jsNumOr s.duration_minutes 0)) 0

/-- app.js `computeWeekStats` const `totalMinutes`:
`moving_duration_minutes || duration_minutes || 0` over all sessions. -/
def totalMinutesAgg (sessions : List Session) : ℚ :=
  sessions.foldl
    (fun sum s => sum + jsNumOr s.moving_duration_minutes (jsNumOr s.duration_minutes 0)) 0

/-- analysis.js `computeMetrics` const `strengthMinutes`:
`duration_minutes || 0` only. -/
def strengthMinutesMetricsAgg (sessions : List Session) : ℚ :=
  (sessions.filter (fun s => s.type == "strength")).foldl
    (fun sum s => sum + jsNumOr s.duration_minutes 0) 0

/-- analysis.js `computeMetrics` const `totalHours`:
`duration_minutes || 0` summed over all sessions, divided by 60. -/
def totalHoursRawMetrics (sessions : List Session) : ℚ :=
  (sessions.foldl (fun sum s => sum + jsNumOr s.duration_minutes 0) 0) / 60

/-- app.js `formatKm`: numeric value `Math.round((value || 0) * 10) / 10`;
the final `.toFixed(1)` one-decimal string rendering is display-only and
faithful because the value is an exact multiple of 1/10. -/
def formatKm (value : ℚ) : ℚ :=
  (jsRound (jsOrZero value * 10) : ℚ) / 10

/-- app.js `formatDuration`, numeric core:
`Math.max(0, Math.round(minutes || 0))` whole minutes. -/
def formatDurationWholeMinutes (minutes : Option ℚ) : ℤ :=
  max 0 (jsRound (jsNumOr minutes 0))

/-- JS `String(mins).padStart(2, '0')` for the 0–59 minute remainder. -/
def padTwo (n : ℤ) : String :=
  if 0 ≤ n ∧ n < 10 then "0" ++ toString n else toString n

/-- app.js `formatDuration`: whole minutes rendered as `Hh MM'` or `M'`. -/
def formatDuration (minutes : Option ℚ) : String :=
  let wholeMinutes := formatDurationWholeMinutes minutes
  let hours := wholeMinutes / 60
  let mins := wholeMinutes % 60
  if hours > 0 then toString hours ++ "h" ++ padTwo mins ++ "\x27"
  else toString mins ++ "\x27"

/-- Result record of app.js `computeWeekStats` (the `weekStats` object);
distance fields hold the numeric value rendered by `formatKm`. -/
structure WeekStats where
  runTrailKm : ℚ
  elevationM : ℤ
  swimKm : ℚ
  bikeKm : ℚ
  strengthTime : String
  totalTime : String

/-- app.js `computeWeekStats`. -/
def computeWeekStats (sessions : List Session) : WeekStats :=
  { runTrailKm := formatKm (runTrailKmAgg sessions)
    elevationM := jsRound (elevationAgg sessions)
    swimKm := formatKm (swimKmAgg sessions)
    bikeKm := formatKm (bikeKmAgg sessions)
    strengthTime := formatDuration (some (strengthMinutesAgg sessions))
    totalTime := formatDuration (some (totalMinutesAgg sessions)) }

/-- Result record of analysis.js `computeMetrics`. -/
structure Metrics where
  runTrailKm : ℚ
  elevationM : ℤ
  bikeKm : ℚ
  swimKm : ℚ
  strengthHours : ℚ
  totalHours : ℚ

/-- analysis.js `computeMetrics`. -/
def computeMetrics (sessions : List Session) : Metrics :=
  { runTrailKm := roundTenth (runTrailKmAgg sessions)
    elevationM := jsRound (elevationAgg sessions)
    bikeKm := roundTenth (bikeKmAgg sessions)
    swimKm := roundTenth (swimKmAgg sessions)
    strengthHours := roundTenth (strengthMinutesMetricsAgg sessions / 60)
    totalHours := roundTenth (totalHoursRawMetrics sessions) }

/-- app.js `formatSessionCompactDuration`, the inner expression
`session.moving_duration_minutes || session.duration_minutes`
(may denote `undefined` when both are falsy). -/
def formatSessionCompactDurationMinutes (s : Session) : Option ℚ :=
  match s.moving_duration_minutes with
  | some v => if v = 0 then s.duration_minutes else some v
  | none => s.duration_minutes

/-- app.js `formatSessionCompactDuration`. -/
def formatSessionCompactDuration (s : Session) : String :=
  formatDuration (formatSessionCompactDurationMinutes s)

/-- Spec-side duration fallback chain (the spec's words): prefer
`moving_duration_minutes` when present, else `elapsed_duration_minutes`,
else the raw `duration_minutes`. -/
def durationFallbackChainSpec (s : Session) : ℚ :=
  match s.moving_duration_minutes with
  | some v => v
  | none =>
    match s.elapsed_duration_minutes with
    | some v => v
    | none => s.duration_minutes.getD 0

/-! Helper lemmas for the aggregation proofs. -/

theorem jsNumOr_some_zero (v : ℚ) : jsNumOr (some v) 0 = v := by
  unfold jsNumOr
  split <;> simp_all

theorem jsNumOr_getD (x : Option ℚ) : jsNumOr x 0 = x.getD 0 := by
  unfold jsNumOr
  cases x with
  | none => rfl
  | some v => split <;> simp_all

theorem foldl_add_map_sum {α : Type} (f : α → ℚ) (a : ℚ) (l : List α) :
    l.foldl (fun sum x => sum + f x) a = a + (l.map f).sum := by
  induction l generalizing a with
  | nil => simp
  | cons x xs ih =>
    simp only [List.foldl_cons, List.map_cons, List.sum_cons, ih]
    ring

theorem filter_map_sum_eq {α : Type} (p : α → Bool) (f : α → ℚ) (l : List α) :
    ((l.filter p).map f).sum = (l.map (fun x => if p x then f x else 0)).sum := by
  induction l with
  | nil => rfl
  | cons x xs ih =>
    by_cases h : p x <;>
      simp [List.filter_cons, h, ih]

theorem totalMinutesAgg_eq_sum (l : List Session) :
    totalMinutesAgg l =
      (l.map (fun s => jsNumOr s.moving_duration_minutes (jsNumOr s.duration_minutes 0))).sum := by
  unfold totalMinutesAgg
  rw [foldl_add_map_sum, zero_add]

theorem elevationAgg_eq_sum (l : List Session) :
    elevationAgg l =
      (l.map (fun s => if s.type = "run" ∨ s.type = "trail" ∨ s.type = "hike"
        then s.elevation_gain_m.getD 0 else 0)).sum := by
  unfold elevationAgg
  rw [foldl_add_map_sum, zero_add, filter_map_sum_eq]
  apply congrArg List.sum
  apply List.map_congr_left
  intro s _
  rw [jsNumOr_getD]
  by_cases h : s.type = "run" ∨ s.type = "trail" ∨ s.type = "hike"
  · rw [if_pos h]
    rcases h with h | h | h <;> simp [h]
  · rw [if_neg h]
    push_neg at h
    obtain ⟨h1, h2, h3⟩ := h
    simp [h1, h2, h3]

theorem formatKm_eq_roundTenth (v : ℚ) : formatKm v = roundTenth v := by
  unfold formatKm roundTenth jsOrZero
  split <;> simp_all

/-! ## Concrete sessions used as counterexample / witness inputs. -/

/-- A session with every optional field absent. -/
def blankSession : Session :=
  { date := "", start_time := none, type := "other",
    moving_duration_minutes := none, elapsed_duration_minutes := none,
    duration_minutes := none, distance_km := none, elevation_gain_m := none,
    notes := none }

/-- A session with only an elapsed duration (30) and a raw duration (50). -/
def sessionElapsedOnly : Session :=
  { blankSession with elapsed_duration_minutes := some 30, duration_minutes := some 50 }

/-- A session with a moving duration (40) and a raw duration (50). -/
def sessionWithMoving : Session :=
  { blankSession with moving_duration_minutes := some 40, duration_minutes := some 50 }

/-- A strength session of 50 raw minutes. -/
def sessionStrength50 : Session :=
  { blankSession with type := "strength", duration_minutes := some 50 }

/-- A session whose moving duration is recorded as 0 with raw duration 45. -/
def sessionZeroMoving : Session :=
  { blankSession with moving_duration_minutes := some 0, duration_minutes := some 45 }

/-- C1 counterexample: the claimed moving→elapsed→raw fallback chain is not
what the code computes.  A session with elapsed 30 and raw 50 contributes 50
(not 30) to `computeWeekStats`'s total, because the code skips straight from
moving to raw; and `computeMetrics` totals raw durations only, so a session
with moving 40 and raw 50 yields a total of 50/60 h, not 40/60 h. -/
theorem weekly_total_duration_chain_counterexample :
    totalMinutesAgg [sessionElapsedOnly] = 50 ∧
    ([sessionElapsedOnly].map durationFallbackChainSpec).sum = 30 ∧
    totalMinutesAgg [sessionElapsedOnly] ≠
      ([sessionElapsedOnly].map durationFallbackChainSpec).sum ∧
    (computeMetrics [sessionWithMoving]).totalHours ≠
      roundTenth (([sessionWithMoving].map durationFallbackChainSpec).sum / 60) := by
  have h1 : totalMinutesAgg [sessionElapsedOnly] = 50 := by
    simp [totalMinutesAgg, jsNumOr, sessionElapsedOnly, blankSession]
  have h2 : ([sessionElapsedOnly].map durationFallbackChainSpec).sum = 30 := by
    simp [durationFallbackChainSpec, sessionElapsedOnly, blankSession]
  have h3 : (computeMetrics [sessionWithMoving]).totalHours = 4 / 5 := by
    simp [computeMetrics, totalHoursRawMetrics, roundTenth, jsRound, jsNumOr,
      sessionWithMoving, blankSession]
    norm_num
  have h4 : roundTenth (([sessionWithMoving].map durationFallbackChainSpec).sum / 60)
      = 7 / 10 := by
    simp [durationFallbackChainSpec, sessionWithMoving, blankSession, roundTenth, jsRound]
    norm_num
  refine ⟨h1, h2, ?_, ?_⟩
  · rw [h1, h2]; norm_num
  · rw [h3, h4]; norm_num

/-- C1 amended: `computeWeekStats` totals each session exactly once with the
fallback `moving_duration_minutes || duration_minutes || 0` (the elapsed
duration is never consulted), and `computeMetrics` totals
`duration_minutes || 0` alone, divided by 60 and rounded to one decimal. -/
theorem weekly_total_duration_amended (l : List Session) :
    totalMinutesAgg l =
      (l.map (fun s => jsNumOr s.moving_duration_minutes (jsNumOr s.duration_minutes 0))).sum ∧
    (computeMetrics l).totalHours =
      roundTenth ((l.map (fun s => jsNumOr s.duration_minutes 0)).sum / 60) := by
  refine ⟨totalMinutesAgg_eq_sum l, ?_⟩
  unfold computeMetrics totalHoursRawMetrics
  dsimp only
  rw [foldl_add_map_sum, zero_add]

/-- C6: the elevation aggregate (shared verbatim by `computeWeekStats` and
`computeMetrics`) sums `elevation_gain_m` over exactly the run/trail/hike
sessions; a session of any other type never contributes, and an included
session with absent elevation contributes zero. -/
theorem elevation_agg_spec (l : List Session) (s : Session) :
    elevationAgg l =
      (l.map (fun s => if s.type = "run" ∨ s.type = "trail" ∨ s.type = "hike"
        then s.elevation_gain_m.getD 0 else 0)).sum ∧
    (computeWeekStats l).elevationM = jsRound (elevationAgg l) ∧
    (computeMetrics l).elevationM = jsRound (elevationAgg l) ∧
    (¬(s.type = "run" ∨ s.type = "trail" ∨ s.type = "hike") →
      elevationAgg (s :: l) = elevationAgg l) ∧
    (s.elevation_gain_m = none → elevationAgg (s :: l) = s.elevation_gain_m.getD 0 + elevationAgg l) := by
  refine ⟨elevationAgg_eq_sum l, rfl, rfl, ?_, ?_⟩
  · intro h
    rw [elevationAgg_eq_sum, elevationAgg_eq_sum, List.map_cons, List.sum_cons, if_neg h,
      zero_add]
  · intro h
    rw [elevationAgg_eq_sum, elevationAgg_eq_sum, List.map_cons, List.sum_cons, h]
    by_cases hty : s.type = "run" ∨ s.type = "trail" ∨ s.type = "hike" <;>
      simp [hty]

/-- Witness for C6 at concrete inputs: a bike session with elevation 100 does
not contribute to the elevation aggregate, and a run session with absent
elevation contributes zero. -/
theorem elevation_agg_spec_witness :
    elevationAgg [{ blankSession with type := "bike", elevation_gain_m := some 100 }] =
      elevationAgg [] ∧
    elevationAgg ({ blankSession with type := "run" } :: []) =
      ({ blankSession with type := "run" } : Session).elevation_gain_m.getD 0 + elevationAgg [] := by
  constructor
  · exact (elevation_agg_spec []
      { blankSession with type := "bike", elevation_gain_m := some 100 }).2.2.2.1
      (by simp [blankSession])
  · exact (elevation_agg_spec [] { blankSession with type := "run" }).2.2.2.2 rfl

/-- C7 counterexample: the 20-week analysis view does not round its duration
aggregates to whole units.  A single 50-minute strength session yields
`totalHours = 0.8`: not a whole number of hours, and `0.8 h = 48 min ≠ 50 min`,
so it is not the whole-minute rounding of the raw sum either. -/
theorem rounding_whole_minutes_counterexample :
    totalHoursRawMetrics [sessionStrength50] * 60 = 50 ∧
    (computeMetrics [sessionStrength50]).totalHours = 4 / 5 ∧
    (computeMetrics [sessionStrength50]).totalHours * 60 = 48 ∧
    ¬ ∃ n : ℤ, (computeMetrics [sessionStrength50]).totalHours = (n : ℚ) := by
  have hraw : totalHoursRawMetrics [sessionStrength50] = 50 / 60 := by
    simp [totalHoursRawMetrics, jsNumOr, sessionStrength50, blankSession]
  have hval : (computeMetrics [sessionStrength50]).totalHours = 4 / 5 := by
    show roundTenth (totalHoursRawMetrics [sessionStrength50]) = 4 / 5
    rw [hraw]
    unfold roundTenth jsRound
    norm_num
  refine ⟨by rw [hraw]; norm_num, hval, by rw [hval]; norm_num, ?_⟩
  rw [hval]
  rintro ⟨n, hn⟩
  have h4 : (4 : ℚ) = 5 * (n : ℚ) := by
    field_simp at hn
    linarith
  have h5 : (4 : ℤ) = 5 * n := by exact_mod_cast h4
  omega

/-- C7 amended: distance aggregates are rounded to one decimal place and
elevation to whole units in both views; duration aggregates are rounded to
whole minutes in the weekly-stats view, but the 20-week analysis view rounds
its duration aggregates to one decimal place of hours, not to whole
minutes. -/
theorem rounding_discipline_amended (l : List Session) :
    ((computeWeekStats l).runTrailKm = roundTenth (runTrailKmAgg l) ∧
      (computeWeekStats l).swimKm = roundTenth (swimKmAgg l) ∧
      (computeWeekStats l).bikeKm = roundTenth (bikeKmAgg l) ∧
      (∃ n : ℤ, (computeWeekStats l).runTrailKm = (n : ℚ) / 10) ∧
      (∃ n : ℤ, (computeWeekStats l).swimKm = (n : ℚ) / 10) ∧
      (∃ n : ℤ, (computeWeekStats l).bikeKm = (n : ℚ) / 10)) ∧
    ((computeWeekStats l).elevationM = jsRound (elevationAgg l) ∧
      (computeMetrics l).elevationM = jsRound (elevationAgg l)) ∧
    ((computeWeekStats l).strengthTime = formatDuration (some (strengthMinutesAgg l)) ∧
      (computeWeekStats l).totalTime = formatDuration (some (totalMinutesAgg l)) ∧
      formatDurationWholeMinutes (some (strengthMinutesAgg l)) =
        max 0 (jsRound (strengthMinutesAgg l)) ∧
      formatDurationWholeMinutes (some (totalMinutesAgg l)) =
        max 0 (jsRound (totalMinutesAgg l))) ∧
    ((∃ n : ℤ, (computeMetrics l).runTrailKm = (n : ℚ) / 10) ∧
      (∃ n : ℤ, (computeMetrics l).bikeKm = (n : ℚ) / 10) ∧
      (∃ n : ℤ, (computeMetrics l).swimKm = (n : ℚ) / 10) ∧
      (∃ n : ℤ, (computeMetrics l).strengthHours = (n : ℚ) / 10) ∧
      (∃ n : ℤ, (computeMetrics l).totalHours = (n : ℚ) / 10) ∧
      (computeMetrics l).strengthHours = roundTenth (strengthMinutesMetricsAgg l / 60) ∧
      (computeMetrics l).totalHours = roundTenth (totalHoursRawMetrics l)) := by
  have hwm : ∀ m : ℚ, formatDurationWholeMinutes (some m) = max 0 (jsRound m) := by
    intro m
    unfold formatDurationWholeMinutes
    rw [jsNumOr_some_zero]
  refine ⟨⟨formatKm_eq_roundTenth _, formatKm_eq_roundTenth _, formatKm_eq_roundTenth _,
      ⟨jsRound (runTrailKmAgg l * 10), (formatKm_eq_roundTenth _).trans rfl⟩,
      ⟨jsRound (swimKmAgg l * 10), (formatKm_eq_roundTenth _).trans rfl⟩,
      ⟨jsRound (bikeKmAgg l * 10), (formatKm_eq_roundTenth _).trans rfl⟩⟩,
    ⟨rfl, rfl⟩,
    ⟨rfl, rfl, hwm _, hwm _⟩,
    ⟨jsRound (runTrailKmAgg l * 10), rfl⟩,
    ⟨jsRound (bikeKmAgg l * 10), rfl⟩,
    ⟨jsRound (swimKmAgg l * 10), rfl⟩,
    ⟨jsRound (strengthMinutesMetricsAgg l / 60 * 10), rfl⟩,
    ⟨jsRound (totalHoursRawMetrics l * 10), rfl⟩,
    rfl, rfl⟩

/-- C8: a recorded moving duration of 0 is falsy in JS, so the duration
fallbacks of `computeWeekStats` and `formatSessionCompactDuration` use the
raw `duration_minutes` instead, exactly as for an absent moving duration. -/
theorem moving_zero_uses_raw_duration (s : Session) (l : List Session)
    (h : s.moving_duration_minutes = some 0) :
    totalMinutesAgg (s :: l) = jsNumOr s.duration_minutes 0 + totalMinutesAgg l ∧
    totalMinutesAgg (s :: l) =
      totalMinutesAgg ({ s with moving_duration_minutes := none } :: l) ∧
    formatSessionCompactDurationMinutes s = s.duration_minutes ∧
    formatSessionCompactDuration s =
      formatSessionCompactDuration { s with moving_duration_minutes := none } := by
  have hmin : formatSessionCompactDurationMinutes s = s.duration_minutes := by
    unfold formatSessionCompactDurationMinutes
    rw [h]
    simp
  have hfb : jsNumOr s.moving_duration_minutes (jsNumOr s.duration_minutes 0) =
      jsNumOr s.duration_minutes 0 := by
    rw [h]
    unfold jsNumOr
    simp
  refine ⟨?_, ?_, hmin, ?_⟩
  · rw [totalMinutesAgg_eq_sum, totalMinutesAgg_eq_sum, List.map_cons, List.sum_cons, hfb]
  · rw [totalMinutesAgg_eq_sum, totalMinutesAgg_eq_sum, List.map_cons, List.map_cons,
      List.sum_cons, List.sum_cons, hfb]
    rfl
  · unfold formatSessionCompactDuration
    rw [hmin]
    rfl

/-- Witness for C8: a session recording moving duration 0 and raw duration 45
is displayed from its raw duration. -/
theorem moving_zero_uses_raw_duration_witness :
    formatSessionCompactDurationMinutes sessionZeroMoving =
      sessionZeroMoving.duration_minutes :=
  (moving_zero_uses_raw_duration sessionZeroMoving [] rfl).2.2.1

/-! ## HTML escaping (app.js `escapeHtml`) -/

/-- JS `String.prototype.replace` with a global single-character pattern:
replace every occurrence of `c` by `repl`. -/
def replaceCharWith (c : Char) (repl : List Char) : List Char → List Char
  | [] => []
  | a :: rest => (if a = c then repl else [a]) ++ replaceCharWith c repl rest

/-- The five chained global replaces of app.js `escapeHtml`, ampersand
first. -/
def escapeChain (s : List Char) : List Char :=
  replaceCharWith '\x27' "&#039;".data
    (replaceCharWith '"' "&quot;".data
      (replaceCharWith '>' "&gt;".data
        (replaceCharWith '<' "&lt;".data
          (replaceCharWith '&' "&amp;".data s))))

/-- app.js `escapeHtml`: `String(text || '')` (so `null`/`undefined` become
the empty string) followed by the five global replaces. -/
def escapeHtml (text : Option String) : String :=
  let s := match text with
    | none => ""
    | some t => t
  String.mk (escapeChain s.data)

/-- Spec-side single-pass escaping of one character: each special character
maps to its HTML entity, every other character is kept. -/
def escapeHtmlCharSpec (c : Char) : List Char :=
  if c = '&' then "&amp;".data
  else if c = '<' then "&lt;".data
  else if c = '>' then "&gt;".data
  else if c = '"' then "&quot;".data
  else if c = '\x27' then "&#039;".data
  else [c]

/-- Spec-side single simultaneous escaping pass over a string. -/
def escapeHtmlSpec : List Char → List Char
  | [] => []
  | c :: rest => escapeHtmlCharSpec c ++ escapeHtmlSpec rest

theorem replaceCharWith_append (c : Char) (repl xs ys : List Char) :
    replaceCharWith c repl (xs ++ ys) =
      replaceCharWith c repl xs ++ replaceCharWith c repl ys := by
  induction xs with
  | nil => rfl
  | cons a as ih => simp [replaceCharWith, ih]

theorem escapeChain_eq_spec (s : List Char) : escapeChain s = escapeHtmlSpec s := by
  induction s with
  | nil => rfl
  | cons c rest ih =>
    have hstep : escapeChain (c :: rest) = escapeChain [c] ++ escapeChain rest := by
      unfold escapeChain
      simp only [show (c :: rest) = [c] ++ rest from rfl, replaceCharWith_append]
    rw [hstep, ih]
    show escapeChain [c] ++ escapeHtmlSpec rest = escapeHtmlCharSpec c ++ escapeHtmlSpec rest
    congr 1
    by_cases h1 : c = '&'
    · subst h1; rfl
    by_cases h2 : c = '<'
    · subst h2; rfl
    by_cases h3 : c = '>'
    · subst h3; rfl
    by_cases h4 : c = '"'
    · subst h4; rfl
    by_cases h5 : c = '\x27'
    · subst h5; rfl
    simp [escapeChain, escapeHtmlCharSpec, replaceCharWith, h1, h2, h3, h4, h5]

/-- No special character survives a single-pass escape. -/
theorem escapeHtmlSpec_no_specials (s : List Char) :
    ((escapeHtmlSpec s).all (fun c =>
      !(c == '<') && !(c == '>') && !(c == '"') && !(c == '\x27'))) = true := by
  induction s with
  | nil => rfl
  | cons c rest ih =>
    unfold escapeHtmlSpec
    rw [List.all_append, ih, Bool.and_true]
    unfold escapeHtmlCharSpec
    by_cases h1 : c = '&'
    · subst h1; rfl
    by_cases h2 : c = '<'
    · subst h2; rfl
    by_cases h3 : c = '>'
    · subst h3; rfl
    by_cases h4 : c = '"'
    · subst h4; rfl
    by_cases h5 : c = '\x27'
    · subst h5; rfl
    simp [h1, h2, h3, h4, h5]

/-- C10: `escapeHtml` output contains none of `<`, `>`, `"` or the single
quote; `null`/`undefined` input yields the empty string; and because the
ampersand is escaped first, the chained replaces equal one simultaneous
single pass over the input, each occurrence of a special character replaced
by its HTML entity. -/
theorem escapeHtml_spec (text : Option String) :
    ((escapeHtml text).data.all (fun c =>
      !(c == '<') && !(c == '>') && !(c == '"') && !(c == '\x27'))) = true ∧
    escapeHtml none = "" ∧
    (escapeHtml text).data =
      escapeHtmlSpec (match text with | none => "" | some t => t).data := by
  have hchain : (escapeHtml text).data =
      escapeHtmlSpec (match text with | none => "" | some t => t).data := by
    unfold escapeHtml
    dsimp only
    rw [escapeChain_eq_spec]
  refine ⟨?_, rfl, hchain⟩
  rw [hchain]
  exact escapeHtmlSpec_no_specials _

/-! ## JS string trimming

ASCII fragment of the JS `\s` class / `String.prototype.trim`; the rarer
Unicode space characters JS also accepts never occur in the inputs
considered here and are not modelled. -/

/-- JS whitespace (ASCII fragment). -/
def jsWhitespace (c : Char) : Bool :=
  c = ' ' || c = '\t' || c = '\n' || c = '\r' || c = '\x0b' || c = '\x0c'

/-- JS `String.prototype.trim` on a character list. -/
def jsTrimList (s : List Char) : List Char :=
  ((s.dropWhile jsWhitespace).reverse.dropWhile jsWhitespace).reverse

/-- JS `String.prototype.trim`. -/
def jsTrimString (s : String) : String :=
  String.mk (jsTrimList s.data)

/-! ## Per-day session listing (app.js `getSessionsForDate`)

The JS comparator orders sessions with non-blank notes first, then by
ascending start time with `Number.MAX_SAFE_INTEGER` standing in for a
missing start time.  JS `Array.prototype.sort` with a consistent comparator
produces the stable sort by that comparator, modelled by `List.mergeSort`. -/

/-- JS `Number.MAX_SAFE_INTEGER`. -/
def MAX_SAFE_INTEGER : ℤ := 9007199254740991

/-- The comparator's notes test: `left.notes && left.notes.trim() !== ''`. -/
def sessionHasNotes (s : Session) : Bool :=
  match s.notes with
  | none => false
  | some t => !(t == "") && !(jsTrimString t == "")

/-- The comparator's time key:
`left.start_time ? new Date(left.start_time).getTime() : Number.MAX_SAFE_INTEGER`. -/
def sessionTimeKey (s : Session) : ℤ :=
  match s.start_time with
  | some t => t
  | none => MAX_SAFE_INTEGER

/-- The sort comparator of `getSessionsForDate` as a boolean
"a may come before b" relation: notes-bearing sessions first, then ascending
time key. -/
def sessionSortLe (a b : Session) : Bool :=
  if sessionHasNotes a = sessionHasNotes b then
    decide (sessionTimeKey a ≤ sessionTimeKey b)
  else
    sessionHasNotes a

/-- app.js `getSessionsForDate`: filter the summary's sessions by date, then
sort with the notes-first / time-ascending comparator. -/
def getSessionsForDate (sessions : List Session) (dateStr : String) : List Session :=
  (sessions.filter (fun s => s.date == dateStr)).mergeSort sessionSortLe

theorem sessionSortLe_trans (a b c : Session) (hab : sessionSortLe a b)
    (hbc : sessionSortLe b c) : sessionSortLe a c := by
  unfold sessionSortLe at *
  cases ha : sessionHasNotes a <;> cases hb : sessionHasNotes b <;>
    cases hc : sessionHasNotes c <;> simp_all <;> omega

theorem sessionSortLe_total (a b : Session) :
    (sessionSortLe a b || sessionSortLe b a) = true := by
  unfold sessionSortLe
  cases ha : sessionHasNotes a <;> cases hb : sessionHasNotes b <;> simp_all <;> omega

/-- C9: `getSessionsForDate` returns exactly the sessions whose `date` equals
the requested date (a permutation of the date filter — none omitted, none
duplicated), ordered so that every session with non-blank notes precedes
every session with blank or absent notes, within equal notes-status in
ascending time-key order; and, provided all present start times are valid JS
date timestamps (strictly below `MAX_SAFE_INTEGER`), sessions lacking a
start time are placed after the others of their notes group. -/
theorem getSessionsForDate_spec (sessions : List Session) (dateStr : String) :
    (getSessionsForDate sessions dateStr).Perm
      (sessions.filter (fun s => s.date == dateStr)) ∧
    (getSessionsForDate sessions dateStr).Pairwise (fun a b =>
      (sessionHasNotes b = true → sessionHasNotes a = true) ∧
      (sessionHasNotes a = sessionHasNotes b → sessionTimeKey a ≤ sessionTimeKey b)) ∧
    ((sessions.all (fun s => match s.start_time with
        | some t => decide (t < MAX_SAFE_INTEGER)
        | none => true)) = true →
      (getSessionsForDate sessions dateStr).Pairwise (fun a b =>
        sessionHasNotes a = sessionHasNotes b → a.start_time = none →
          b.start_time = none)) := by
  have hsorted := List.sorted_mergeSort sessionSortLe_trans sessionSortLe_total
    (sessions.filter (fun s => s.date == dateStr))
  have hperm : (getSessionsForDate sessions dateStr).Perm
      (sessions.filter (fun s => s.date == dateStr)) :=
    List.mergeSort_perm _ _
  have hkey : ∀ a b : Session, sessionSortLe a b = true →
      (sessionHasNotes b = true → sessionHasNotes a = true) ∧
      (sessionHasNotes a = sessionHasNotes b → sessionTimeKey a ≤ sessionTimeKey b) := by
    intro a b h
    unfold sessionSortLe at h
    cases ha : sessionHasNotes a <;> cases hb : sessionHasNotes b <;> simp_all
  refine ⟨hperm, hsorted.imp (fun h => hkey _ _ h), ?_⟩
  intro hbound
  have hmem : ∀ s : Session, s ∈ getSessionsForDate sessions dateStr →
      ∀ t, s.start_time = some t → t < MAX_SAFE_INTEGER := by
    intro s hs t hst
    have hs2 : s ∈ sessions := by
      have := (hperm.mem_iff).1 hs
      exact List.mem_of_mem_filter this
    have := (List.all_eq_true.1 hbound) s hs2
    rw [hst] at this
    exact of_decide_eq_true this
  refine List.Pairwise.imp_of_mem ?_ hsorted
  intro a b hma hmb hle heq hnone
  have hab := hkey _ _ hle
  cases hbt : b.start_time with
  | none => rfl
  | some t =>
    exfalso
    have htlt : t < MAX_SAFE_INTEGER := hmem b hmb t hbt
    have hka : sessionTimeKey a = MAX_SAFE_INTEGER := by
      unfold sessionTimeKey
      rw [hnone]
    have hkb : sessionTimeKey b = t := by
      unfold sessionTimeKey
      rw [hbt]
    have := hab.2 heq
    omega

/-- Witness for C9 at a concrete two-session day: the no-notes session is
listed after the notes-bearing one, and the permutation property holds. -/
theorem getSessionsForDate_spec_witness :
    (getSessionsForDate
        [{ blankSession with date := "2024-05-01", notes := some "hard" },
         { blankSession with date := "2024-05-01" }] "2024-05-01").Pairwise
      (fun a b =>
        sessionHasNotes a = sessionHasNotes b → a.start_time = none →
          b.start_time = none) :=
  (getSessionsForDate_spec
    [{ blankSession with date := "2024-05-01", notes := some "hard" },
     { blankSession with date := "2024-05-01" }] "2024-05-01").2.2 (by rfl)

/-! ## Strength-focus notes annotation
(app.js `parseStrengthMeta` / `buildNotesWithStrengthMeta`)

`parseStrengthMeta` matches `^\[StrengthFocus:\s*(.*?)\]\n?`.  The regex is
deterministic: the greedy `\s*` takes the maximal whitespace run, the lazy
group then extends to the first `]` (the dot cannot cross a line
terminator), and `\n?` takes one following newline if present.  Strings are
embedded as `List Char`. -/

/-- The tag literal `[StrengthFocus:`. -/
def strengthTagChars : List Char := "[StrengthFocus:".data

/-- Scanner for the regex fragment `(.*?)\]`: the shortest run of
non-line-terminator characters up to a `]`.  Returns the captured run and
the remainder after the `]`, or `none` when no `]` is reachable. -/
def scanToBracket : List Char → Option (List Char × List Char)
  | [] => none
  | c :: rest =>
    if c = ']' then some ([], rest)
    else if c = '\n' ∨ c = '\r' then none
    else
      match scanToBracket rest with
      | some (inner, r) => some (c :: inner, r)
      | none => none

/-- The regex fragment `\n?`: at most one newline is consumed. -/
def dropOneNewline : List Char → List Char
  | '\n' :: t => t
  | r => r

/-- Full match of `^\[StrengthFocus:\s*(.*?)\]\n?`: on success, the captured
group and the rest of the string after the match. -/
def matchStrengthTag (s : List Char) : Option (List Char × List Char) :=
  if strengthTagChars.isPrefixOf s then
    match scanToBracket ((s.drop strengthTagChars.length).dropWhile jsWhitespace) with
    | some (inner, r) => some (inner, dropOneNewline r)
    | none => none
  else none

/-- JS `String.prototype.split(',')` (`''` splits to `['']`). -/
def splitOnComma : List Char → List (List Char)
  | [] => [[]]
  | c :: rest =>
    match splitOnComma rest with
    | [] => [[]]
    | cur :: others =>
      if c = ',' then [] :: cur :: others else (c :: cur) :: others

/-- `match[1].split(',').map(trim).filter(nonempty)` of `parseStrengthMeta`. -/
def parseFocuses (inner : List Char) : List (List Char) :=
  ((splitOnComma inner).map jsTrimList).filter (fun f => !f.isEmpty)

/-- app.js `parseStrengthMeta`: `none` models a `null`/`undefined` argument
(the JS also treats the empty string as falsy). -/
def parseStrengthMeta (notesText : Option (List Char)) :
    List (List Char) × List Char :=
  match notesText with
  | none => ([], [])
  | some s =>
    if s = [] then ([], [])
    else
      match matchStrengthTag s with
      | none => ([], s)
      | some (inner, rest) => (parseFocuses inner, rest)

/-- JS `focuses.join(', ')`. -/
def joinFocuses : List (List Char) → List Char
  | [] => []
  | [f] => f
  | f :: rest => f ++ ',' :: ' ' :: joinFocuses rest

/-- app.js `buildNotesWithStrengthMeta`: trim the notes, and when focuses are
present prepend the `[StrengthFocus: …]` tag line.  `none` models the JS
`null` return for a blank result. -/
def buildNotesWithStrengthMeta (notesText : Option (List Char))
    (focuses : List (List Char)) : Option (List Char) :=
  let clean := jsTrimList (match notesText with | none => [] | some s => s)
  if focuses.isEmpty then
    if clean.isEmpty then none else some clean
  else
    some (if clean.isEmpty then strengthTagChars ++ ' ' :: joinFocuses focuses ++ [']']
      else (strengthTagChars ++ ' ' :: joinFocuses focuses ++ [']']) ++ '\n' :: clean)

/-! Lemmas about trimming, splitting and joining. -/

theorem jsTrimList_cons_ws (c : Char) (l : List Char) (h : jsWhitespace c = true) :
    jsTrimList (c :: l) = jsTrimList l := by
  unfold jsTrimList
  rw [List.dropWhile_cons_of_pos h]

theorem length_dropWhile_le_self (p : Char → Bool) (l : List Char) :
    (l.dropWhile p).length ≤ l.length := by
  induction l with
  | nil => simp
  | cons c rest ih =>
    rw [List.dropWhile_cons]
    split
    · simp only [List.length_cons]
      omega
    · simp

theorem jsTrimList_length_le (l : List Char) : (jsTrimList l).length ≤ l.length := by
  unfold jsTrimList
  calc ((l.dropWhile jsWhitespace).reverse.dropWhile jsWhitespace).reverse.length
      = ((l.dropWhile jsWhitespace).reverse.dropWhile jsWhitespace).length := by
        rw [List.length_reverse]
    _ ≤ (l.dropWhile jsWhitespace).reverse.length := length_dropWhile_le_self _ _
    _ = (l.dropWhile jsWhitespace).length := by rw [List.length_reverse]
    _ ≤ l.length := length_dropWhile_le_self _ _

theorem head_not_ws_of_trimmed (c : Char) (rest : List Char)
    (h : jsTrimList (c :: rest) = c :: rest) : jsWhitespace c = false := by
  by_contra hws
  rw [Bool.not_eq_false] at hws
  have h2 := jsTrimList_cons_ws c rest hws
  have h3 := jsTrimList_length_le rest
  rw [h] at h2
  have h4 : (c :: rest).length = (jsTrimList rest).length := by rw [h2]
  have h5 : (c :: rest).length = rest.length + 1 := by simp
  omega

theorem scanToBracket_append (j rest : List Char)
    (hj : ∀ c ∈ j, c ≠ ']' ∧ c ≠ '\n' ∧ c ≠ '\r') :
    scanToBracket (j ++ ']' :: rest) = some (j, rest) := by
  induction j with
  | nil => rfl
  | cons c j' ih =>
    obtain ⟨h1, h2, h3⟩ := hj c (List.mem_cons_self c j')
    have ih' := ih (fun x hx => hj x (List.mem_cons_of_mem c hx))
    rw [List.cons_append]
    simp only [scanToBracket, if_neg h1,
      if_neg (show ¬(c = '\n' ∨ c = '\r') by tauto), ih']

theorem splitOnComma_ne_nil (l : List Char) : splitOnComma l ≠ [] := by
  cases l with
  | nil => simp [splitOnComma]
  | cons c rest =>
    unfold splitOnComma
    rcases h : splitOnComma rest with _ | ⟨cur, others⟩ <;> simp [h]
    split <;> simp

theorem splitOnComma_cons_comma (t : List Char) :
    splitOnComma (',' :: t) = [] :: splitOnComma t := by
  rcases h : splitOnComma t with _ | ⟨cur, others⟩
  · exact absurd h (splitOnComma_ne_nil t)
  · simp only [splitOnComma, h]
    simp

theorem splitOnComma_cons_of_ne (c : Char) (t : List Char) (h : c ≠ ',')
    {cur : List Char} {others : List (List Char)} (ht : splitOnComma t = cur :: others) :
    splitOnComma (c :: t) = (c :: cur) :: others := by
  simp only [splitOnComma, ht]
  simp [h]

theorem splitOnComma_no_comma (l : List Char) (h : ',' ∉ l) :
    splitOnComma l = [l] := by
  induction l with
  | nil => rfl
  | cons c t ih =>
    have hc : c ≠ ',' := fun hc => h (hc ▸ List.mem_cons_self c t)
    have ht : splitOnComma t = [t] := ih (fun hm => h (List.mem_cons_of_mem c hm))
    exact splitOnComma_cons_of_ne c t hc ht

theorem splitOnComma_append_comma (f t : List Char) (hf : ',' ∉ f) :
    splitOnComma (f ++ ',' :: t) = f :: splitOnComma t := by
  induction f with
  | nil => simpa using splitOnComma_cons_comma t
  | cons c f' ih =>
    have hc : c ≠ ',' := fun hc => hf (hc ▸ List.mem_cons_self c f')
    have ih' := ih (fun hm => hf (List.mem_cons_of_mem c hm))
    rw [List.cons_append, splitOnComma_cons_of_ne c (f' ++ ',' :: t) hc ih']

theorem map_trim_splitOnComma_cons_space (t : List Char) :
    (splitOnComma (' ' :: t)).map jsTrimList = (splitOnComma t).map jsTrimList := by
  rcases h : splitOnComma t with _ | ⟨cur, others⟩
  · exact absurd h (splitOnComma_ne_nil t)
  · simp only [splitOnComma_cons_of_ne ' ' t (by decide) h, h, List.map_cons,
      jsTrimList_cons_ws ' ' cur (by decide)]

theorem joinFocuses_cons (f : List Char) (fs : List (List Char)) (h : fs ≠ []) :
    joinFocuses (f :: fs) = f ++ ',' :: ' ' :: joinFocuses fs := by
  cases fs with
  | nil => exact absurd rfl h
  | cons g rest => rfl

theorem mem_joinFocuses (c : Char) (fs : List (List Char)) (hc : c ∈ joinFocuses fs) :
    (∃ f ∈ fs, c ∈ f) ∨ c = ',' ∨ c = ' ' := by
  induction fs with
  | nil => simp [joinFocuses] at hc
  | cons f fs' ih =>
    cases fs' with
    | nil =>
      left
      exact ⟨f, List.mem_cons_self f [], hc⟩
    | cons g rest =>
      rw [joinFocuses_cons f (g :: rest) (by simp)] at hc
      rcases List.mem_append.1 hc with hm | hm
      · exact Or.inl ⟨f, List.mem_cons_self f _, hm⟩
      · rcases List.mem_cons.1 hm with hm2 | hm2
        · exact Or.inr (Or.inl hm2)
        · rcases List.mem_cons.1 hm2 with hm3 | hm3
          · exact Or.inr (Or.inr hm3)
          · rcases ih hm3 with ⟨f', hf', hcf'⟩ | h2
            · exact Or.inl ⟨f', List.mem_cons_of_mem f hf', hcf'⟩
            · exact Or.inr h2

theorem parseFocuses_joinFocuses (fs : List (List Char))
    (hf : ∀ f ∈ fs, f ≠ [] ∧ ',' ∉ f ∧ jsTrimList f = f) :
    parseFocuses (joinFocuses fs) = fs := by
  induction fs with
  | nil => rfl
  | cons f fs' ih =>
    obtain ⟨hne, hnc, htr⟩ := hf f (List.mem_cons_self f fs')
    have hkeep : (!f.isEmpty) = true := by
      cases f with
      | nil => exact absurd rfl hne
      | cons a b => rfl
    cases fs' with
    | nil =>
      unfold joinFocuses parseFocuses
      rw [splitOnComma_no_comma f hnc, List.map_cons, htr, List.map_nil,
        List.filter_cons, hkeep]
      rfl
    | cons g rest =>
      have ih' := ih (fun x hx => hf x (List.mem_cons_of_mem f hx))
      rw [joinFocuses_cons f (g :: rest) (by simp)]
      unfold parseFocuses
      rw [splitOnComma_append_comma f _ hnc, List.map_cons, htr, List.filter_cons, hkeep,
        map_trim_splitOnComma_cons_space]
      unfold parseFocuses at ih'
      rw [ih']
      simp

theorem joinFocuses_eq_head_append (f : List Char) (fs : List (List Char)) :
    ∃ r, joinFocuses (f :: fs) = f ++ r := by
  cases fs with
  | nil => exact ⟨[], by simp [joinFocuses]⟩
  | cons g rest => exact ⟨',' :: ' ' :: joinFocuses (g :: rest), rfl⟩

theorem matchStrengthTag_built (f0 : List Char) (fs : List (List Char)) (tail : List Char)
    (hf : ∀ f ∈ f0 :: fs,
      f ≠ [] ∧ ',' ∉ f ∧ ']' ∉ f ∧ '\n' ∉ f ∧ '\r' ∉ f ∧ jsTrimList f = f) :
    matchStrengthTag (strengthTagChars ++ ' ' :: joinFocuses (f0 :: fs) ++ ']' :: tail) =
      some (joinFocuses (f0 :: fs), dropOneNewline tail) := by
  have hpre : strengthTagChars.isPrefixOf
      (strengthTagChars ++ ' ' :: joinFocuses (f0 :: fs) ++ ']' :: tail) = true := by
    rw [List.isPrefixOf_iff_prefix]
    exact List.prefix_append _ _
  obtain ⟨hne, _, _, _, _, htr⟩ := hf f0 (List.mem_cons_self f0 fs)
  obtain ⟨c0, f0', hc0⟩ : ∃ c0 f0', f0 = c0 :: f0' := by
    cases f0 with
    | nil => exact absurd rfl hne
    | cons a b => exact ⟨a, b, rfl⟩
  have hws0 : jsWhitespace c0 = false := head_not_ws_of_trimmed c0 f0' (hc0 ▸ htr)
  obtain ⟨r, hr⟩ := joinFocuses_eq_head_append f0 fs
  have hdw : (' ' :: joinFocuses (f0 :: fs) ++ ']' :: tail).dropWhile jsWhitespace
      = joinFocuses (f0 :: fs) ++ ']' :: tail := by
    rw [List.cons_append, List.dropWhile_cons_of_pos (by decide)]
    rw [hr, hc0, List.cons_append, List.cons_append]
    exact List.dropWhile_cons_of_neg (by simp [hws0])
  have hscan : scanToBracket (joinFocuses (f0 :: fs) ++ ']' :: tail)
      = some (joinFocuses (f0 :: fs), tail) := by
    apply scanToBracket_append
    intro c hc
    rcases mem_joinFocuses c (f0 :: fs) hc with ⟨f, hfm, hcf⟩ | hcs | hcs
    · obtain ⟨_, _, h3, h4, h5, _⟩ := hf f hfm
      exact ⟨fun he => h3 (he ▸ hcf), fun he => h4 (he ▸ hcf), fun he => h5 (he ▸ hcf)⟩
    · subst hcs
      exact ⟨by decide, by decide, by decide⟩
    · subst hcs
      exact ⟨by decide, by decide, by decide⟩
  have hrest : (strengthTagChars ++ ' ' :: joinFocuses (f0 :: fs) ++ ']' :: tail).drop
      strengthTagChars.length = ' ' :: joinFocuses (f0 :: fs) ++ ']' :: tail :=
    List.drop_left _ _
  unfold matchStrengthTag
  rw [if_pos hpre, hrest, hdw, hscan]

/-- C5 counterexample: the claimed hypotheses (labels non-empty, comma-free,
whitespace-trimmed) admit the label `a]b`, on which the round-trip fails: the
lazy regex group stops at the first `]`, so parsing the built notes returns
focus `a` and clean notes `b]` instead of the original list. -/
theorem strength_meta_roundtrip_counterexample :
    (['a', ']', 'b'] ≠ ([] : List Char) ∧ ',' ∉ ['a', ']', 'b'] ∧
      jsTrimList ['a', ']', 'b'] = ['a', ']', 'b'] ∧
      strengthTagChars.isPrefixOf (jsTrimList []) = false) ∧
    parseStrengthMeta (buildNotesWithStrengthMeta (some []) [['a', ']', 'b']]) =
      ([['a']], ['b', ']']) ∧
    parseStrengthMeta (buildNotesWithStrengthMeta (some []) [['a', ']', 'b']]) ≠
      ([['a', ']', 'b']], jsTrimList []) := by
  decide

/-- C5 amended: the round-trip holds once focus labels are additionally
required to contain no `]` and no line terminator: for every such label list
and every notes text whose trimmed form does not itself begin with the
`[StrengthFocus:` tag, parsing the built notes returns exactly the original
focus list and the trimmed notes text; with an empty focus list the encoding
is the trimmed notes unchanged (`null` when blank). -/
theorem strength_meta_roundtrip_amended (notes : List Char) (focuses : List (List Char))
    (hf : ∀ f ∈ focuses,
      f ≠ [] ∧ ',' ∉ f ∧ ']' ∉ f ∧ '\n' ∉ f ∧ '\r' ∉ f ∧ jsTrimList f = f)
    (hn : strengthTagChars.isPrefixOf (jsTrimList notes) = false) :
    parseStrengthMeta (buildNotesWithStrengthMeta (some notes) focuses) =
      (focuses, jsTrimList notes) ∧
    buildNotesWithStrengthMeta (some notes) [] =
      (if jsTrimList notes = [] then none else some (jsTrimList notes)) := by
  have htagne : strengthTagChars ≠ [] := by
    intro hcontra
    have := congrArg List.length hcontra
    simp [strengthTagChars] at this
  have hbuild0 : buildNotesWithStrengthMeta (some notes) [] =
      (if jsTrimList notes = [] then none else some (jsTrimList notes)) := by
    unfold buildNotesWithStrengthMeta
    dsimp only
    rcases h : jsTrimList notes with _ | ⟨c, t⟩ <;> simp [h]
  refine ⟨?_, hbuild0⟩
  cases focuses with
  | nil =>
    rw [hbuild0]
    rcases h : jsTrimList notes with _ | ⟨c, t⟩
    · rfl
    · rw [if_neg (by simp)]
      simp only [parseStrengthMeta]
      rw [if_neg (by simp)]
      have hmt : matchStrengthTag (c :: t) = none := by
        unfold matchStrengthTag
        rw [if_neg (by rw [← h, hn]; simp)]
      rw [hmt]
  | cons f0 fs =>
    have hfsub : ∀ f ∈ f0 :: fs, f ≠ [] ∧ ',' ∉ f ∧ jsTrimList f = f := by
      intro f hm
      obtain ⟨a, b, _, _, _, c⟩ := hf f hm
      exact ⟨a, b, c⟩
    unfold buildNotesWithStrengthMeta
    dsimp only
    rw [if_neg (by simp)]
    rcases h : jsTrimList notes with _ | ⟨c, t⟩
    · rw [if_pos (by simp)]
      simp only [parseStrengthMeta]
      rw [if_neg (by simp [htagne])]
      rw [matchStrengthTag_built f0 fs [] hf]
      dsimp only
      rw [parseFocuses_joinFocuses (f0 :: fs) hfsub]
      rfl
    · rw [if_neg (by simp)]
      have hsplit : (strengthTagChars ++ ' ' :: joinFocuses (f0 :: fs) ++ [']']) ++
            '\n' :: c :: t =
          strengthTagChars ++ ' ' :: joinFocuses (f0 :: fs) ++ ']' :: ('\n' :: c :: t) := by
        simp
      simp only [parseStrengthMeta]
      rw [if_neg (by simp [htagne])]
      rw [hsplit, matchStrengthTag_built f0 fs ('\n' :: c :: t) hf]
      dsimp only
      rw [parseFocuses_joinFocuses (f0 :: fs) hfsub]
      rfl

/-- Witness for C5 (amended): label list `[core]` with notes `" push "`
round-trips to the same labels and the trimmed notes `push`. -/
theorem strength_meta_roundtrip_amended_witness :
    parseStrengthMeta
        (buildNotesWithStrengthMeta (some " push ".data) [['c', 'o', 'r', 'e']]) =
      ([['c', 'o', 'r', 'e']], jsTrimList " push ".data) :=
  (strength_meta_roundtrip_amended " push ".data [['c', 'o', 'r', 'e']]
    (by decide) (by decide)).1

/-! ## Reconciliation Engine (spec-modelled)

The backend implementing the Reconciliation Engine is not part of the source
tree under verification (only its consumers are present), so the merge
operation is modelled from the spec (§3, §4.3). -/

/-- Modelled from the spec: the `source` enum of a Session / candidate. -/
inductive RecordSource
  | manual
  | fileImport
  | remoteSync
deriving DecidableEq

/-- Modelled from the spec: an activity candidate produced by the File
Decoder or the Remote Sync Client — the payload the merge upserts plus the
`(source, external_id)` dedup anchor.  For a file candidate `external_id` is
the file's content hash, so re-decoding the same file yields the identical
candidate. -/
structure Candidate where
  source : RecordSource
  external_id : Option String
  date : String
  type : String
  moving_duration_minutes : Option ℚ
  elapsed_duration_minutes : Option ℚ
  duration_minutes : Option ℚ
  distance_km : Option ℚ
  elevation_gain_m : Option ℚ
  notes : Option String
deriving DecidableEq

/-- Modelled from the spec: a canonical Session held by the Session Store,
with its store id and the duplicate-suspect tag of spec §4.3. -/
structure StoredSession where
  id : ℕ
  source : RecordSource
  external_id : Option String
  date : String
  type : String
  moving_duration_minutes : Option ℚ
  elapsed_duration_minutes : Option ℚ
  duration_minutes : Option ℚ
  distance_km : Option ℚ
  elevation_gain_m : Option ℚ
  notes : Option String
  duplicate_suspect : Bool
deriving DecidableEq

/-- Modelled from the spec: `merge(candidate) -> {inserted | updated |
skipped-duplicate}`. -/
inductive MergeOutcome
  | inserted
  | updated
  | skipped
deriving DecidableEq

/-- Modelled from the spec: the Session Store (canonical sessions plus the
next fresh surrogate id). -/
structure SessionStore where
  sessions : List StoredSession
  nextId : ℕ
deriving DecidableEq

/-- Does a stored session carry the `(source, external_id)` key? -/
def keyPred (src : RecordSource) (eid : String) (s : StoredSession) : Bool :=
  decide (s.source = src ∧ s.external_id = some eid)

/-- Does a stored session match the candidate's dedup anchor? -/
def matchesKey (c : Candidate) (eid : String) : StoredSession → Bool :=
  keyPred c.source eid

/-- The store invariant of spec §3: at most one canonical Session per
`(source, external_id)` pair when the external id is present. -/
def storeKeyUnique (sessions : List StoredSession) : Prop :=
  ∀ src eid, ((sessions.filter (keyPred src eid)).length ≤ 1)

/-- The candidate's payload already equals the stored session's derived
fields (the merge then reports `skipped`). -/
def sameDerivedFields (c : Candidate) (s : StoredSession) : Prop :=
  s.date = c.date ∧ s.type = c.type ∧
  s.moving_duration_minutes = c.moving_duration_minutes ∧
  s.elapsed_duration_minutes = c.elapsed_duration_minutes ∧
  s.duration_minutes = c.duration_minutes ∧
  s.distance_km = c.distance_km ∧
  s.elevation_gain_m = c.elevation_gain_m ∧
  s.notes = c.notes

instance (c : Candidate) (s : StoredSession) : Decidable (sameDerivedFields c s) := by
  unfold sameDerivedFields
  infer_instance

/-- Overwrite the derived fields of an existing canonical session with the
candidate's payload (spec §4.3: an exact key match always upserts onto the
existing canonical Session, overwriting derived fields). -/
def overwriteDerived (c : Candidate) (s : StoredSession) : StoredSession :=
  { s with
    date := c.date
    type := c.type
    moving_duration_minutes := c.moving_duration_minutes
    elapsed_duration_minutes := c.elapsed_duration_minutes
    duration_minutes := c.duration_minutes
    distance_km := c.distance_km
    elevation_gain_m := c.elevation_gain_m
    notes := c.notes }

/-- Secondary dedup check of spec §4.3: a manual-source session on the same
date with the same type marks the inserted candidate as a duplicate suspect.
(The spec leaves the exact time-proximity window open; same calendar date
and same type is the window chosen by this model.) -/
def duplicateSuspect (sessions : List StoredSession) (c : Candidate) : Bool :=
  sessions.any (fun s =>
    decide (s.source = RecordSource.manual ∧ s.date = c.date ∧ s.type = c.type))

/-- The canonical session created for an inserted candidate. -/
def newStoredSession (store : SessionStore) (c : Candidate) (suspect : Bool) :
    StoredSession :=
  { id := store.nextId
    source := c.source
    external_id := c.external_id
    date := c.date
    type := c.type
    moving_duration_minutes := c.moving_duration_minutes
    elapsed_duration_minutes := c.elapsed_duration_minutes
    duration_minutes := c.duration_minutes
    distance_km := c.distance_km
    elevation_gain_m := c.elevation_gain_m
    notes := c.notes
    duplicate_suspect := suspect }

/-- Insert the candidate as a new canonical session with a fresh id. -/
def insertCandidate (store : SessionStore) (c : Candidate) (suspect : Bool) :
    SessionStore :=
  { sessions := store.sessions ++ [newStoredSession store c suspect]
    nextId := store.nextId + 1 }

/-- The store after overwriting the derived fields of every session carrying
the candidate's key (under the invariant, at most one). -/
def updateByKey (store : SessionStore) (c : Candidate) (eid : String) : SessionStore :=
  { sessions := store.sessions.map
      (fun s => if matchesKey c eid s then overwriteDerived c s else s)
    nextId := store.nextId }

/-- Modelled from the spec: the primary-dedup arm of the merge for a
candidate with external id `eid` — an exact `(source, external_id)` match
upserts onto the existing canonical Session (`updated` when a derived field
changes, `skipped` when nothing changes); otherwise the candidate is
inserted. -/
def mergeWithKey (store : SessionStore) (c : Candidate) (eid : String) :
    SessionStore × MergeOutcome :=
  match store.sessions.find? (matchesKey c eid) with
  | some existing =>
    if sameDerivedFields c existing then (store, MergeOutcome.skipped)
    else (updateByKey store c eid, MergeOutcome.updated)
  | none =>
    (insertCandidate store c (duplicateSuspect store.sessions c),
      MergeOutcome.inserted)

/-- Modelled from the spec: the Reconciliation Engine's
`merge(candidate) -> {inserted | updated | skipped-duplicate}` (spec §4.3).
Primary dedup by `(source, external_id)` via `mergeWithKey`; a candidate
without an external id is always inserted as a new Session, tagged a
duplicate suspect when a manual same-date same-type session exists. -/
def merge (store : SessionStore) (c : Candidate) : SessionStore × MergeOutcome :=
  match c.external_id with
  | some eid => mergeWithKey store c eid
  | none =>
    (insertCandidate store c (duplicateSuspect store.sessions c),
      MergeOutcome.inserted)

theorem merge_eq_some (store : SessionStore) (c : Candidate) (eid : String)
    (heid : c.external_id = some eid) : merge store c = mergeWithKey store c eid := by
  unfold merge
  rw [heid]

theorem merge_eq_none (store : SessionStore) (c : Candidate)
    (heid : c.external_id = none) :
    merge store c =
      (insertCandidate store c (duplicateSuspect store.sessions c),
        MergeOutcome.inserted) := by
  unfold merge
  rw [heid]

theorem mergeWithKey_eq_found (store : SessionStore) (c : Candidate) (eid : String)
    (existing : StoredSession)
    (hfind : store.sessions.find? (matchesKey c eid) = some existing) :
    mergeWithKey store c eid =
      if sameDerivedFields c existing then (store, MergeOutcome.skipped)
      else (updateByKey store c eid, MergeOutcome.updated) := by
  unfold mergeWithKey
  rw [hfind]

theorem mergeWithKey_eq_notfound (store : SessionStore) (c : Candidate) (eid : String)
    (hfind : store.sessions.find? (matchesKey c eid) = none) :
    mergeWithKey store c eid =
      (insertCandidate store c (duplicateSuspect store.sessions c),
        MergeOutcome.inserted) := by
  unfold mergeWithKey
  rw [hfind]

/-! Supporting lemmas for the reconciliation proofs. -/

theorem keyPred_overwriteDerived (src : RecordSource) (eid : String) (c : Candidate)
    (s : StoredSession) : keyPred src eid (overwriteDerived c s) = keyPred src eid s := rfl

theorem keyPred_newStoredSession (src : RecordSource) (eid : String)
    (store : SessionStore) (c : Candidate) (susp : Bool) :
    keyPred src eid (newStoredSession store c susp) =
      decide (c.source = src ∧ c.external_id = some eid) := rfl

theorem sameDerivedFields_overwriteDerived (c : Candidate) (s : StoredSession) :
    sameDerivedFields c (overwriteDerived c s) :=
  ⟨rfl, rfl, rfl, rfl, rfl, rfl, rfl, rfl⟩

theorem sameDerivedFields_newStoredSession (store : SessionStore) (c : Candidate)
    (susp : Bool) : sameDerivedFields c (newStoredSession store c susp) :=
  ⟨rfl, rfl, rfl, rfl, rfl, rfl, rfl, rfl⟩

theorem length_filter_map_eq {α : Type} (f : α → α) (p : α → Bool) (l : List α)
    (h : ∀ s, p (f s) = p s) : ((l.map f).filter p).length = (l.filter p).length := by
  induction l with
  | nil => rfl
  | cons x xs ih =>
    rw [List.map_cons, List.filter_cons, List.filter_cons, h x]
    split <;> simp [ih]

theorem storeKeyUnique_insertCandidate (store : SessionStore) (c : Candidate)
    (susp : Bool) (hinv : storeKeyUnique store.sessions)
    (hnomatch : ∀ eid, c.external_id = some eid →
      store.sessions.filter (keyPred c.source eid) = []) :
    storeKeyUnique (insertCandidate store c susp).sessions := by
  unfold storeKeyUnique insertCandidate
  intro src eid
  dsimp only
  rw [List.filter_append, List.length_append]
  by_cases hk : keyPred src eid (newStoredSession store c susp) = true
  · obtain ⟨hsrc, heid⟩ : c.source = src ∧ c.external_id = some eid := by
      rw [keyPred_newStoredSession] at hk
      exact of_decide_eq_true hk
    have hemp : store.sessions.filter (keyPred src eid) = [] := by
      rw [← hsrc]
      exact hnomatch eid heid
    rw [hemp]
    have := List.length_filter_le (keyPred src eid) [newStoredSession store c susp]
    simp only [List.length_nil, List.length_cons] at *
    omega
  · have hemp : List.filter (keyPred src eid) [newStoredSession store c susp] = [] := by
      rw [List.filter_cons, if_neg hk]
      rfl
    rw [hemp]
    have := hinv src eid
    simp only [List.length_nil]
    omega

/-- Modelled from the spec: after merging a candidate with an external id
into a store satisfying the uniqueness invariant, exactly one canonical
session carries the candidate's `(source, external_id)` key, and every
session carrying it holds the candidate's payload. -/
theorem merge_establishes (store : SessionStore) (c : Candidate) (eid : String)
    (heid : c.external_id = some eid) (hinv : storeKeyUnique store.sessions) :
    ((merge store c).1.sessions.filter (matchesKey c eid)).length = 1 ∧
    ∀ s ∈ (merge store c).1.sessions, matchesKey c eid s = true →
      sameDerivedFields c s := by
  rw [merge_eq_some store c eid heid]
  rcases hfind : store.sessions.find? (matchesKey c eid) with _ | existing
  · rw [mergeWithKey_eq_notfound store c eid hfind]
    have hold : store.sessions.filter (matchesKey c eid) = [] :=
      List.filter_eq_nil_iff.2 (List.find?_eq_none.1 hfind)
    have hnew : matchesKey c eid (newStoredSession store c
        (duplicateSuspect store.sessions c)) = true := by
      unfold matchesKey
      rw [keyPred_newStoredSession]
      exact decide_eq_true ⟨rfl, heid⟩
    constructor
    · unfold insertCandidate
      dsimp only
      rw [List.filter_append, hold, List.filter_cons, if_pos hnew]
      rfl
    · intro s hs hmatch
      unfold insertCandidate at hs
      dsimp only at hs
      rcases List.mem_append.1 hs with hsl | hsl
      · exact absurd hmatch (by simpa using (List.find?_eq_none.1 hfind) s hsl)
      · have hseq : s = newStoredSession store c (duplicateSuspect store.sessions c) := by
          simpa using hsl
        rw [hseq]
        exact sameDerivedFields_newStoredSession _ _ _
  · rw [mergeWithKey_eq_found store c eid existing hfind]
    have hexmem : existing ∈ store.sessions := List.mem_of_find?_eq_some hfind
    have hexp : matchesKey c eid existing = true := List.find?_some hfind
    have hexfil : existing ∈ store.sessions.filter (matchesKey c eid) :=
      List.mem_filter.2 ⟨hexmem, hexp⟩
    have hlen1 : (store.sessions.filter (matchesKey c eid)).length = 1 := by
      have hpos : 0 < (store.sessions.filter (matchesKey c eid)).length :=
        List.length_pos_of_mem hexfil
      have := hinv c.source eid
      unfold matchesKey at hpos ⊢
      omega
    by_cases hsame : sameDerivedFields c existing
    · rw [if_pos hsame]
      refine ⟨hlen1, ?_⟩
      intro s hs hmatch
      obtain ⟨a, ha⟩ := List.length_eq_one.1 hlen1
      have hsa : s = a := by
        have hsf : s ∈ store.sessions.filter (matchesKey c eid) :=
          List.mem_filter.2 ⟨hs, hmatch⟩
        rw [ha] at hsf
        simpa using hsf
      have hea : existing = a := by
        rw [ha] at hexfil
        simpa using hexfil
      rw [hsa, ← hea]
      exact hsame
    · rw [if_neg hsame]
      have hpres : ∀ s, matchesKey c eid
          (if matchesKey c eid s then overwriteDerived c s else s) =
            matchesKey c eid s := by
        intro s
        split
        · exact keyPred_overwriteDerived c.source eid c s
        · rfl
      constructor
      · unfold updateByKey
        dsimp only
        rw [length_filter_map_eq _ _ _ hpres]
        exact hlen1
      · intro s hs hmatch
        unfold updateByKey at hs
        dsimp only at hs
        obtain ⟨s0, hs0mem, hs0eq⟩ := List.mem_map.1 hs
        by_cases hm0 : matchesKey c eid s0 = true
        · rw [← hs0eq, if_pos hm0]
          exact sameDerivedFields_overwriteDerived c s0
        · exfalso
          rw [← hs0eq, hpres s0] at hmatch
          exact hm0 hmatch

/-- Modelled from the spec: merging a candidate whose key already maps to a
single canonical session holding the candidate's payload changes nothing and
reports `skipped`. -/
theorem merge_skips_established (store : SessionStore) (c : Candidate) (eid : String)
    (heid : c.external_id = some eid)
    (hlen : (store.sessions.filter (matchesKey c eid)).length = 1)
    (hall : ∀ s ∈ store.sessions, matchesKey c eid s = true → sameDerivedFields c s) :
    merge store c = (store, MergeOutcome.skipped) := by
  obtain ⟨a, ha⟩ := List.length_eq_one.1 hlen
  have hamem : a ∈ store.sessions.filter (matchesKey c eid) := by
    rw [ha]
    exact List.mem_cons_self a []
  obtain ⟨hamem2, hap⟩ := List.mem_filter.1 hamem
  rw [merge_eq_some store c eid heid]
  rcases hfind : store.sessions.find? (matchesKey c eid) with _ | existing
  · exact absurd hap (by simpa using (List.find?_eq_none.1 hfind) a hamem2)
  · rw [mergeWithKey_eq_found store c eid existing hfind,
      if_pos (hall existing (List.mem_of_find?_eq_some hfind) (List.find?_some hfind))]

/-- Modelled from the spec (invariant part of C3): every merge preserves the
`(source, external_id)` uniqueness invariant. -/
theorem merge_preserves_invariant (store : SessionStore) (c : Candidate)
    (hinv : storeKeyUnique store.sessions) :
    storeKeyUnique (merge store c).1.sessions := by
  rcases hceid : c.external_id with _ | eid
  · rw [merge_eq_none store c hceid]
    apply storeKeyUnique_insertCandidate store c _ hinv
    intro eid' heid'
    rw [hceid] at heid'
    exact absurd heid' (by simp)
  · rw [merge_eq_some store c eid hceid]
    rcases hfind : store.sessions.find? (matchesKey c eid) with _ | existing
    · rw [mergeWithKey_eq_notfound store c eid hfind]
      apply storeKeyUnique_insertCandidate store c _ hinv
      intro eid' heid'
      rw [hceid] at heid'
      have heq2 : eid' = eid := by
        injection heid'.symm
      rw [heq2]
      exact List.filter_eq_nil_iff.2 (List.find?_eq_none.1 hfind)
    · rw [mergeWithKey_eq_found store c eid existing hfind]
      by_cases hsame : sameDerivedFields c existing
      · rw [if_pos hsame]
        exact hinv
      · rw [if_neg hsame]
        unfold storeKeyUnique updateByKey
        intro src eid'
        dsimp only
        have hpres : ∀ s, keyPred src eid'
            (if matchesKey c eid s then overwriteDerived c s else s) =
              keyPred src eid' s := by
          intro s
          split
          · exact keyPred_overwriteDerived src eid' c s
          · rfl
        rw [length_filter_map_eq _ _ _ hpres]
        exact hinv src eid'

/-- C3: merging the same candidate (same file content hash, hence same
`(source, external_id)`) twice into a store satisfying the uniqueness
invariant yields exactly one canonical Session for that key, with the second
merge reporting `updated` or `skipped` and never a second `inserted`; and
every merge operation — with or without an external id — preserves the
invariant that at most one canonical Session exists per
`(source, external_id)` pair when the external id is present. -/
theorem merge_idempotent_and_invariant (store : SessionStore) (c : Candidate)
    (eid : String) (heid : c.external_id = some eid)
    (hinv : storeKeyUnique store.sessions) :
    (merge (merge store c).1 c).2 ≠ MergeOutcome.inserted ∧
    ((merge (merge store c).1 c).2 = MergeOutcome.updated ∨
      (merge (merge store c).1 c).2 = MergeOutcome.skipped) ∧
    (merge (merge store c).1 c).1 = (merge store c).1 ∧
    ((merge (merge store c).1 c).1.sessions.filter (matchesKey c eid)).length = 1 ∧
    (∀ c' : Candidate, storeKeyUnique (merge store c').1.sessions) := by
  obtain ⟨hlen, hall⟩ := merge_establishes store c eid heid hinv
  have hskip := merge_skips_established (merge store c).1 c eid heid hlen hall
  rw [hskip]
  exact ⟨fun hcontra => MergeOutcome.noConfusion hcontra, Or.inr rfl, rfl, hlen,
    fun c' => merge_preserves_invariant store c' hinv⟩

/-- An empty Session Store. -/
def emptyStore : SessionStore :=
  { sessions := []
    nextId := 1 }

/-- A file-import candidate whose external id is the file's content hash. -/
def fileCandidate : Candidate :=
  { source := RecordSource.fileImport
    external_id := some "H1"
    date := "2024-05-01"
    type := "run"
    moving_duration_minutes := none
    elapsed_duration_minutes := none
    duration_minutes := some 50
    distance_km := some 10
    elevation_gain_m := none
    notes := none }

/-- Witness for C3: importing the same decoded file twice into an empty
store leaves exactly one canonical Session for its content-hash key and the
second merge does not insert. -/
theorem merge_idempotent_and_invariant_witness :
    (merge (merge emptyStore fileCandidate).1 fileCandidate).2 ≠
      MergeOutcome.inserted ∧
    ((merge (merge emptyStore fileCandidate).1 fileCandidate).1.sessions.filter
      (matchesKey fileCandidate "H1")).length = 1 := by
  have h := merge_idempotent_and_invariant emptyStore fileCandidate "H1" rfl
    (by unfold storeKeyUnique; intro src eid; simp [emptyStore])
  exact ⟨h.1, h.2.2.2.1⟩

end TrainingOS
